import Mathlib


set_option linter.unusedVariables false

/-!
Verification development for `git-stats.py`: a shallow embedding of its
statistics aggregation and adjustment engine, together with theorems about
the engine's behaviour.

Strings are modelled as lists of characters (`Str`), so that every
operation is a structurally recursive, kernel-computable function.
-/
abbrev Str : Type := List Char

/-- Python `s.split(sep)` for a one-character separator: `''.split(sep) = ['']`,
separators delimit (possibly empty) groups. -/
def pySplit (sep : Char) : Str → List Str
  | [] => [[]]
  | c :: rest =>
    match pySplit sep rest with
    | [] => [[c]]
    | g :: gs => if c = sep then [] :: g :: gs else (c :: g) :: gs

/-- Python `s.strip(q)` for a one-character strip set: removes all leading and
trailing occurrences of `q`. -/
def pyStripChar (q : Char) (l : Str) : Str :=
  ((l.dropWhile (fun c => c = q)).reverse.dropWhile (fun c => c = q)).reverse

/-- Python `s.strip()`: removes leading and trailing whitespace. -/
def pyStripWs (l : Str) : Str :=
  ((l.dropWhile Char.isWhitespace).reverse.dropWhile Char.isWhitespace).reverse

def digitsVal (l : Str) : Nat :=
  l.foldl (fun acc c => acc * 10 + (c.toNat - '0'.toNat)) 0

def allDigits (l : Str) : Bool := !l.isEmpty && l.all Char.isDigit

/-- Python `int(s)` on the strings produced by `git --numstat` fields:
optional surrounding whitespace, optional sign, a nonempty digit run;
`none` models the `ValueError` raised on anything else. -/
def pyInt? (l : Str) : Option Int :=
  match pyStripWs l with
  | '-' :: ds => if allDigits ds then some (-(digitsVal ds : Int)) else none
  | '+' :: ds => if allDigits ds then some (digitsVal ds : Int) else none
  | ds => if allDigits ds then some (digitsVal ds : Int) else none

/-- `line.startswith('"') and line.endswith('"')` (git-stats.py line 106). -/
def isDateLine (l : Str) : Bool :=
  match l with
  | [] => false
  | c :: _ => decide (c = '"') && decide (l.getLast? = some '"')

/-- The binary-file sentinel `"-"` of `git --numstat`. -/
def binTok : Str := ['-']

/-! ## The Ignored-Change Resolver (git-stats.py lines 37-73)

`ignored_changes` is a Python dict from file path to `{'added', 'removed'}`;
we model it as an insertion-ordered association list. -/
abbrev IgnTable : Type := List (Str × Int × Int)

def lookupTbl : IgnTable → Str → Option (Int × Int)
  | [], _ => none
  | (k, a, r) :: rest, f => if k = f then some (a, r) else lookupTbl rest f

/-- `if file_path not in ignored_changes: ignored_changes[file_path] = {0,0}`
(lines 66-67): a missing key is appended with zero counts. -/
def ensureKey (t : IgnTable) (f : Str) : IgnTable :=
  if (lookupTbl t f).isSome then t else t ++ [(f, 0, 0)]

/-- In-place `+=` on the entry of an existing key (lines 69-70). -/
def addToKey : IgnTable → Str → Int → Int → IgnTable
  | [], _, _, _ => []
  | (k, a, r) :: rest, f, da, dr =>
    if k = f then (k, a + da, r + dr) :: rest else (k, a, r) :: addToKey rest f da dr

/-- One line of `git show --numstat` output inside the ignored-commit loop
(lines 51-70).  `.error t` models the `ValueError` of `int()` escaping the
line loop with the partially mutated table `t` (the surrounding
`except Exception` at line 72 catches it per commit). -/
def ignLineStep (t : IgnTable) (line : Str) : Except IgnTable IgnTable :=
  if (pyStripWs line).isEmpty then .ok t
  else
    match pySplit '\t' line with
    | [added, removed, filePath] =>
      if added = binTok ∨ removed = binTok then .ok t
      else
        let t1 := ensureKey t filePath
        match pyInt? added with
        | none => .error t1
        | some a =>
          let t2 := addToKey t1 filePath a 0
          match pyInt? removed with
          | none => .error t2
          | some r => .ok (addToKey t2 filePath 0 r)
    | _ => .ok t

/-- The per-commit line loop: processes lines in order; an exception stops
the commit's remaining lines but keeps the mutations made so far. -/
def ignCommitLines : IgnTable → List Str → IgnTable
  | t, [] => t
  | t, l :: ls =>
    match ignLineStep t l with
    | .ok t' => ignCommitLines t' ls
    | .error t' => t'

/-- Builds the IgnoredChangeTable (lines 37-73).  `fetch h` models
`git show --numstat --pretty=format: h` (stdout stripped and split into
lines); `none` models a nonzero return code, which is skipped with a
warning (lines 44-47). -/
def buildIgnoredChanges (fetch : Str → Option (List Str)) : IgnTable → List Str → IgnTable
  | t, [] => t
  | t, h :: hs =>
    match fetch h with
    | none => buildIgnoredChanges fetch t hs
    | some lines => buildIgnoredChanges fetch (ignCommitLines t lines) hs

/-! ## The Statistics Accumulator (git-stats.py lines 100-155) -/
structure RepoStats where
  added : Int
  removed : Int
  total : Int
  commits : Nat
deriving Repr, DecidableEq

structure DateStats where
  added : Int
  removed : Int
  total : Int
deriving Repr, DecidableEq

structure GitLogState where
  stats : RepoStats
  dateStats : List (Str × DateStats)
  currentDate : Option Str
deriving Repr, DecidableEq

def containsDate (ds : List (Str × DateStats)) (d : Str) : Bool :=
  ds.any (fun p => decide (p.1 = d))

/-- `if current_date not in date_stats: date_stats[current_date] = {0,0,0}`
(lines 109-110). -/
def initDate (ds : List (Str × DateStats)) (d : Str) : List (Str × DateStats) :=
  if containsDate ds d then ds else ds ++ [(d, ⟨0, 0, 0⟩)]

/-- The three `+=` updates on `date_stats[current_date]` (lines 151-153).
By construction of the accumulator the key is always present when this is
invoked, so the no-op on an absent key is unreachable. -/
def bumpDate (ds : List (Str × DateStats)) (d : Str) (ac rc : Int) :
    List (Str × DateStats) :=
  ds.map (fun p =>
    if p.1 = d then
      (p.1, ⟨p.2.added + ac, p.2.removed + rc, p.2.total + (ac - rc)⟩)
    else p)

/-- Lines 135-142: subtract the ignored-change entry for this file, clamping
each count at zero; files absent from the table are left unadjusted. -/
def adjustCounts (ign : IgnTable) (f : Str) (a r : Int) : Int × Int :=
  match lookupTbl ign f with
  | none => (a, r)
  | some (ia, ir) => (max 0 (a - ia), max 0 (r - ir))

/-- One iteration of the `for line in lines` loop of `get_git_stats`
(lines 105-153).  `re` abstracts `re.search` (pattern, string ↦ matched?);
`none` models the `ValueError` of `int()` (uncaught inside
`get_git_stats`). -/
def gitLogStep (re : Str → Str → Bool) (excl : List Str) (ign : IgnTable)
    (s : GitLogState) (line : Str) : Option GitLogState :=
  if isDateLine line then
    let d := pyStripChar '"' line
    some { s with currentDate := some d, dateStats := initDate s.dateStats d }
  else if line = [] then some s
  else
    match pySplit '\t' line with
    | [added, removed, filePath] =>
      if added = binTok ∨ removed = binTok then some s
      else if excl.any (fun p => re p filePath) then some s
      else
        match pyInt? added, pyInt? removed with
        | some a, some r =>
          let ac := (adjustCounts ign filePath a r).1
          let rc := (adjustCounts ign filePath a r).2
          some { stats := { added := s.stats.added + ac
                            removed := s.stats.removed + rc
                            total := s.stats.total + (ac - rc)
                            commits := s.stats.commits }
                 dateStats :=
                   match s.currentDate with
                   | some d => bumpDate s.dateStats d ac rc
                   | none => s.dateStats
                 currentDate := s.currentDate }
        | _, _ => none
    | _ => some s

def processLines (re : Str → Str → Bool) (excl : List Str) (ign : IgnTable) :
    GitLogState → List Str → Option GitLogState
  | s, [] => some s
  | s, l :: ls =>
    match gitLogStep re excl ign s l with
    | some s' => processLines re excl ign s' ls
    | none => none

/-- The whole accumulation loop of `get_git_stats` over the git-log output
lines, starting from `stats = {0,0,0,commit_count}`, `date_stats = {}`,
`current_date = None` (lines 101-104). -/
def processGitLog (re : Str → Str → Bool) (excl : List Str) (ign : IgnTable)
    (lines : List Str) (commitCount : Nat) : Option GitLogState :=
  processLines re excl ign ⟨⟨0, 0, 0, commitCount⟩, [], none⟩ lines

/-- `get_git_stats`' return value `(stats, date_stats)` (line 155). -/
def getGitStats (re : Str → Str → Bool) (excl : List Str) (ign : IgnTable)
    (lines : List Str) (commitCount : Nat) :
    Option (RepoStats × List (Str × DateStats)) :=
  (processGitLog re excl ign lines commitCount).map (fun s => (s.stats, s.dateStats))

/-! ## The Multi-Author/Repository Aggregator and CSV export
(`main`, git-stats.py lines 319-369)

`getStats` abstracts `get_git_stats(repo_path, author, ...)` at the
(author, repository-path) level: `none` models an exception caught by the
`try/except` at lines 335-352, which skips the pair. -/
structure Repo where
  path : Str
  name : Str
deriving Repr, DecidableEq

structure CsvRow where
  author : Str
  repo : Str
  added : Int
  removed : Int
  total : Int
  commits : Nat
deriving Repr, DecidableEq

/-- The whole CSV as far as the claims need it: the per-(author, repo) data
rows, then the final grand-total row
(added, removed, net, change, commits) of line 368. -/
structure CsvFile where
  dataRows : List CsvRow
  totalRow : Int × Int × Int × Int × Nat
deriving Repr, DecidableEq

/-- Python dict assignment `all_repos_stats[repo_name] = stats` (line 339):
replaces in place when the key exists, otherwise appends. -/
def updateRepoTable : List (Str × RepoStats) → Str → RepoStats → List (Str × RepoStats)
  | [], k, v => [(k, v)]
  | (k', v') :: rest, k, v =>
    if k = k' then (k, v) :: rest else (k', v') :: updateRepoTable rest k v

/-- One iteration of the inner `for repo_path in valid_repos` loop
(lines 331-354): the pair is stored only when
`stats['added'] > 0 or stats['removed'] > 0` (line 338). -/
def repoStep (getStats : Str → Str → Option RepoStats) (author : Str)
    (t : List (Str × RepoStats)) (r : Repo) : List (Str × RepoStats) :=
  match getStats author r.path with
  | none => t
  | some st => if st.added > 0 ∨ st.removed > 0 then updateRepoTable t r.name st else t

def processRepos (getStats : Str → Str → Option RepoStats) (author : Str) :
    List (Str × RepoStats) → List Repo → List (Str × RepoStats)
  | t, [] => t
  | t, r :: rs => processRepos getStats author (repoStep getStats author t r) rs

def tblAdded (t : List (Str × RepoStats)) : Int := (t.map (fun p => p.2.added)).sum

def tblRemoved (t : List (Str × RepoStats)) : Int := (t.map (fun p => p.2.removed)).sum

def tblNet (t : List (Str × RepoStats)) : Int := (t.map (fun p => p.2.total)).sum

def tblCommits (t : List (Str × RepoStats)) : Nat := (t.map (fun p => p.2.commits)).sum

/-- `all_repos_stats` (shared across all authors, never reset), the data rows
written so far, and the last values assigned to
`total_added/total_removed/total_net/total_commits` (`none` while they are
still unassigned names). -/
structure MainState where
  table : List (Str × RepoStats)
  rows : List CsvRow
  totals : Option (Int × Int × Int × Nat)
deriving Repr, DecidableEq

/-- One iteration of the outer `for author in authors` loop (lines 330-364):
process every repository, then — only if `all_repos_stats` is non-empty —
write one row per stored repository under the *current* author's name and
recompute the running totals. -/
def authorStep (getStats : Str → Str → Option RepoStats) (repos : List Repo)
    (s : MainState) (author : Str) : MainState :=
  let t := processRepos getStats author s.table repos
  if t.isEmpty then { s with table := t }
  else
    { table := t
      rows := s.rows ++ t.map (fun p => ⟨author, p.1, p.2.added, p.2.removed, p.2.total, p.2.commits⟩)
      totals := some (tblAdded t, tblRemoved t, tblNet t, tblCommits t) }

def processAuthors (getStats : Str → Str → Option RepoStats) (repos : List Repo) :
    MainState → List Str → MainState
  | s, [] => s
  | s, a :: rest => processAuthors getStats repos (authorStep getStats repos s a) rest

/-- Lines 323-326: split a comma-separated author specification and strip
each entry. -/
def splitAuthors (s : Str) : List Str :=
  if s.contains ',' then (pySplit ',' s).map pyStripWs else [pyStripWs s]

/-- The CSV-producing part of `main` (lines 328-369).  After the author loop,
line 366 evaluates `total_added + total_removed`; if no author iteration ever
assigned the totals (i.e. `all_repos_stats` stayed empty), this raises
`NameError`, modelled as `.error ()`.  Otherwise the file ends with the
grand-total row `(added, removed, net, added+removed, commits)`. -/
def runMain (getStats : Str → Str → Option RepoStats) (authorStr : Str)
    (repos : List Repo) : Except Unit CsvFile :=
  let final := processAuthors getStats repos ⟨[], [], none⟩ (splitAuthors authorStr)
  match final.totals with
  | none => .error ()
  | some (a, r, n, c) => .ok ⟨final.rows, (a, r, n, a + r, c)⟩

/-- The grand-total row of the produced CSV (or the crash). -/
def totalsOf (e : Except Unit CsvFile) : Except Unit (Int × Int × Int × Int × Nat) :=
  e.map (fun f => f.totalRow)

/-! ## Per-line effect of the Ignored-Change Resolver

To reason about the table as a per-file sum we characterise the effect of
each processed line on the looked-up counts of one file. -/
def lkA (t : IgnTable) (f : Str) : Int :=
  match lookupTbl t f with
  | none => 0
  | some (a, _) => a

def lkR (t : IgnTable) (f : Str) : Int :=
  match lookupTbl t f with
  | none => 0
  | some (_, r) => r

/-- Whether `ignLineStep` completes the line without raising. -/
def lineOk (l : Str) : Bool :=
  if (pyStripWs l).isEmpty then true
  else
    match pySplit '\t' l with
    | [added, removed, _] =>
      if added = binTok ∨ removed = binTok then true
      else (pyInt? added).isSome && (pyInt? removed).isSome
    | _ => true

/-- How much one processed line adds to the table's `added` count of file
`f` (zero when the added field fails to parse: the `+=` never executes). -/
def lineEffA (l : Str) (f : Str) : Int :=
  if (pyStripWs l).isEmpty then 0
  else
    match pySplit '\t' l with
    | [added, removed, filePath] =>
      if added = binTok ∨ removed = binTok then 0
      else if filePath = f then
        match pyInt? added with
        | some a => a
        | none => 0
      else 0
    | _ => 0

/-- How much one processed line adds to the table's `removed` count of file
`f` (the removed `+=` executes only after the added one succeeded). -/
def lineEffR (l : Str) (f : Str) : Int :=
  if (pyStripWs l).isEmpty then 0
  else
    match pySplit '\t' l with
    | [added, removed, filePath] =>
      if added = binTok ∨ removed = binTok then 0
      else if filePath = f then
        match pyInt? added, pyInt? removed with
        | some _, some r => r
        | _, _ => 0
      else 0
    | _ => 0

/-- Effect of one commit's whole line list on file `f`'s `added` count:
lines up to and including the first raising line contribute. -/
def commitEffA : List Str → Str → Int
  | [], _ => 0
  | l :: ls, f => if lineOk l then lineEffA l f + commitEffA ls f else lineEffA l f

def commitEffR : List Str → Str → Int
  | [], _ => 0
  | l :: ls, f => if lineOk l then lineEffR l f + commitEffR ls f else lineEffR l f

def Conserv (s : GitLogState) : Prop :=
  s.stats.total = s.stats.added - s.stats.removed ∧
  ∀ p ∈ s.dateStats, p.2.total = p.2.added - p.2.removed

def exRe : Str → Str → Bool := fun _ _ => false

def c1Lines : List Str :=
  ["\"2024-01-01\"".toList, "10\t2\ta.txt".toList, "1\t4\tb.txt".toList]

def c1St : GitLogState :=
  ⟨⟨11, 6, 5, 1⟩, [("2024-01-01".toList, ⟨11, 6, 5⟩)], some "2024-01-01".toList⟩

/-! ## Inputs and predicates used by the theorems below -/
/-- A git-log output line whose numeric fields, where they parse at all, are
non-negative — true of every line `git --numstat` actually emits. -/
def lineNonneg (l : Str) : Bool :=
  match pySplit '\t' l with
  | [added, removed, _] =>
    (match pyInt? added with
     | some a => decide (0 ≤ a)
     | none => true) &&
    (match pyInt? removed with
     | some r => decide (0 ≤ r)
     | none => true)
  | _ => true

def NonnegStats (s : GitLogState) : Prop :=
  0 ≤ s.stats.added ∧ 0 ≤ s.stats.removed

def c2Ign : IgnTable := [("a.txt".toList, 15, 0)]

def c2Lines : List Str := ["10\t2\ta.txt".toList]

/-! ## Exclusion predicate and concrete matcher -/
/-- A line that reaches the exclusion test of line 129 and matches some
configured pattern: a non-date, non-empty, three-field, non-binary stat line
whose file path is matched (`re.search`, unanchored) by a pattern. -/
def isExcludedStat (re : Str → Str → Bool) (excl : List Str) (line : Str) : Bool :=
  !isDateLine line && !decide (line = []) &&
    match pySplit '\t' line with
    | [added, removed, filePath] =>
      !decide (added = binTok ∨ removed = binTok) && excl.any (fun p => re p filePath)
    | _ => false

/-- Prefix matching, one concrete instantiation of the abstract `re.search`
collaborator for witnesses. -/
def rePrefix : Str → Str → Bool := fun p f => p.isPrefixOf f

def c5Excl : List Str := ["vendor/".toList]

def c5Line : Str := "100\t0\tvendor/lib.js".toList

def c10Lines : List Str := ["\"2024-01-01\"".toList, "-\t-\timg.png".toList]

/-! ## Effect functions for the Ignored-Change Resolver -/
def resTable (e : Except IgnTable IgnTable) : IgnTable :=
  match e with
  | .ok t => t
  | .error t => t

def isOkE (e : Except IgnTable IgnTable) : Bool :=
  match e with
  | .ok _ => true
  | .error _ => false

/-! ## Concrete ignore-list inputs -/
def c3Fetch : Str → Option (List Str) :=
  fun h => if h = "abc123".toList then some ["3\t1\tf.txt".toList] else none

def c3Lines : List Str := ["10\t5\tf.txt".toList]

/-! ## Concrete inputs for the CSV-writing loop of `main` -/
instance exceptDecEq {ε α : Type} [DecidableEq ε] [DecidableEq α] :
    DecidableEq (Except ε α) := fun x y =>
  match x, y with
  | .ok a, .ok b =>
    if h : a = b then isTrue (by rw [h])
    else isFalse (fun he => by cases he; exact h rfl)
  | .error a, .error b =>
    if h : a = b then isTrue (by rw [h])
    else isFalse (fun he => by cases he; exact h rfl)
  | .ok _, .error _ => isFalse (fun he => by cases he)
  | .error _, .ok _ => isFalse (fun he => by cases he)

def c4GetStats : Str → Str → Option RepoStats :=
  fun a _ =>
    if a = "alice".toList then some ⟨10, 2, 8, 3⟩
    else if a = "bob".toList then some ⟨0, 0, 0, 5⟩
    else none

def c4Repos : List Repo := [⟨"/home/u/repo1".toList, "repo1".toList⟩]

def c9GetStats : Str → Str → Option RepoStats := fun _ _ => some ⟨0, 0, 0, 5⟩

/-! ## Keyed-table machinery for repository-order reasoning -/
def c7GetStats : Str → Str → Option RepoStats :=
  fun _ p =>
    if p = "/a/proj".toList then some ⟨1, 0, 1, 1⟩
    else if p = "/b/proj".toList then some ⟨5, 0, 5, 2⟩
    else none

def c7r1 : Repo := ⟨"/a/proj".toList, "proj".toList⟩

def c7r2 : Repo := ⟨"/b/proj".toList, "proj".toList⟩

def NodupKeys (t : List (Str × RepoStats)) : Prop := (t.map Prod.fst).Nodup

def eraseKey (t : List (Str × RepoStats)) (k : Str) : List (Str × RepoStats) :=
  t.filter (fun p => decide (¬ p.1 = k))

def MainRel (s₁ s₂ : MainState) : Prop :=
  s₁.table.Perm s₂.table ∧ NodupKeys s₁.table ∧ s₁.totals = s₂.totals

def c7d1 : Repo := ⟨"/a/one".toList, "one".toList⟩

def c7d2 : Repo := ⟨"/b/two".toList, "two".toList⟩

/-! ## Theorems -/

/-! ## Invariant machinery for the accumulation loop -/
theorem processLines_inv (re : Str → Str → Bool) (excl : List Str) (ign : IgnTable)
    (P : GitLogState → Prop) (Q : Str → Prop)
    (hstep : ∀ s l s', P s → Q l → gitLogStep re excl ign s l = some s' → P s') :
    ∀ lines s st, (∀ l ∈ lines, Q l) → processLines re excl ign s lines = some st →
      P s → P st := by
  intro lines
  induction lines with
  | nil =>
    intro s st hQ h hP
    simp only [processLines, Option.some.injEq] at h
    exact h ▸ hP
  | cons l ls ih =>
    intro s st hQ h hP
    simp only [processLines] at h
    cases hstep' : gitLogStep re excl ign s l with
    | none => rw [hstep'] at h; exact absurd h (by simp)
    | some s' =>
      rw [hstep'] at h
      exact ih s' st (fun x hx => hQ x (List.mem_cons_of_mem _ hx)) h
        (hstep s l s' hP (hQ l (List.mem_cons_self _ _)) hstep')

theorem initDate_conserv (ds : List (Str × DateStats)) (d : Str)
    (hd : ∀ p ∈ ds, p.2.total = p.2.added - p.2.removed) :
    ∀ p ∈ initDate ds d, p.2.total = p.2.added - p.2.removed := by
  intro p hp
  unfold initDate at hp
  split at hp
  · exact hd p hp
  · rcases List.mem_append.1 hp with h | h
    · exact hd p h
    · simp only [List.mem_singleton] at h
      subst h; simp

theorem bumpDate_conserv (ds : List (Str × DateStats)) (d : Str) (ac rc : Int)
    (hd : ∀ p ∈ ds, p.2.total = p.2.added - p.2.removed) :
    ∀ p ∈ bumpDate ds d ac rc, p.2.total = p.2.added - p.2.removed := by
  intro p hp
  unfold bumpDate at hp
  rcases List.mem_map.1 hp with ⟨q, hq, rfl⟩
  by_cases h : q.1 = d
  · simp only [h, if_pos]
    have := hd q hq
    omega
  · simp only [h, if_neg, not_false_iff]
    exact hd q hq

theorem gitLogStep_conserv (re : Str → Str → Bool) (excl : List Str) (ign : IgnTable)
    (s : GitLogState) (l : Str) (s' : GitLogState)
    (hP : Conserv s) (h : gitLogStep re excl ign s l = some s') : Conserv s' := by
  obtain ⟨hs, hd⟩ := hP
  unfold gitLogStep at h
  split at h
  · -- date-marker line
    simp only [Option.some.injEq] at h
    subst h
    exact ⟨hs, initDate_conserv _ _ hd⟩
  · split at h
    · -- empty line
      simp only [Option.some.injEq] at h; subst h; exact ⟨hs, hd⟩
    · -- candidate stat line
      split at h
      · -- exactly three tab-separated fields
        rename_i added removed filePath
        split at h
        · simp only [Option.some.injEq] at h; subst h; exact ⟨hs, hd⟩
        · split at h
          · simp only [Option.some.injEq] at h; subst h; exact ⟨hs, hd⟩
          · split at h
            · rename_i a r _
              simp only [Option.some.injEq] at h
              subst h
              refine ⟨by dsimp only; omega, ?_⟩
              cases hcd : s.currentDate with
              | none => simp only [hcd]; exact hd
              | some d => simp only [hcd]; exact bumpDate_conserv _ _ _ _ hd
            · exact absurd h (by simp)
      · simp only [Option.some.injEq] at h; subst h; exact ⟨hs, hd⟩

/-- C1: after accumulation over the whole record stream, with ignore-list
subtraction and clamping, `total = added - removed` holds exactly for the
overall RepoStats and for every DateStats date bucket. -/
theorem conservation_of_totals (re : Str → Str → Bool) (excl : List Str)
    (ign : IgnTable) (lines : List Str) (c : Nat) (st : GitLogState)
    (h : processGitLog re excl ign lines c = some st) :
    st.stats.total = st.stats.added - st.stats.removed ∧
    ∀ p ∈ st.dateStats, p.2.total = p.2.added - p.2.removed := by
  have : Conserv st := by
    refine processLines_inv re excl ign Conserv (fun _ => True)
      (fun s l s' hP _ hstep => gitLogStep_conserv re excl ign s l s' hP hstep)
      lines ⟨⟨0, 0, 0, c⟩, [], none⟩ st (fun _ _ => trivial) h ⟨rfl, by simp⟩
  exact this

theorem conservation_of_totals_witness :
    c1St.stats.total = c1St.stats.added - c1St.stats.removed ∧
    ∀ p ∈ c1St.dateStats, p.2.total = p.2.added - p.2.removed :=
  conservation_of_totals exRe [] [] c1Lines 1 c1St (by decide)

theorem adjustCounts_nonneg (ign : IgnTable) (f : Str) (a r : Int)
    (ha : 0 ≤ a) (hr : 0 ≤ r) :
    0 ≤ (adjustCounts ign f a r).1 ∧ 0 ≤ (adjustCounts ign f a r).2 := by
  unfold adjustCounts
  cases lookupTbl ign f with
  | none => exact ⟨ha, hr⟩
  | some p =>
    obtain ⟨ia, ir⟩ := p
    exact ⟨le_max_left 0 _, le_max_left 0 _⟩

theorem gitLogStep_nonneg (re : Str → Str → Bool) (excl : List Str) (ign : IgnTable)
    (s : GitLogState) (l : Str) (s' : GitLogState)
    (hP : NonnegStats s) (hQ : lineNonneg l = true)
    (h : gitLogStep re excl ign s l = some s') : NonnegStats s' := by
  obtain ⟨hs1, hs2⟩ := hP
  unfold gitLogStep at h
  split at h
  · simp only [Option.some.injEq] at h; subst h; exact ⟨hs1, hs2⟩
  · split at h
    · simp only [Option.some.injEq] at h; subst h; exact ⟨hs1, hs2⟩
    · split at h
      · rename_i added removed filePath hsplit
        split at h
        · simp only [Option.some.injEq] at h; subst h; exact ⟨hs1, hs2⟩
        · split at h
          · simp only [Option.some.injEq] at h; subst h; exact ⟨hs1, hs2⟩
          · cases hpA : pyInt? added with
            | none => rw [hpA] at h; simp at h
            | some a =>
              cases hpR : pyInt? removed with
              | none => rw [hpA, hpR] at h; simp at h
              | some r =>
                rw [hpA, hpR] at h
                simp only [Option.some.injEq] at h
                subst h
                unfold lineNonneg at hQ
                rw [hsplit] at hQ
                dsimp only at hQ
                rw [hpA, hpR] at hQ
                simp only [Bool.and_eq_true, decide_eq_true_eq] at hQ
                have hadj := adjustCounts_nonneg ign filePath a r hQ.1 hQ.2
                exact ⟨by dsimp only; omega, by dsimp only; omega⟩
      · simp only [Option.some.injEq] at h; subst h; exact ⟨hs1, hs2⟩

/-- C2: ignore subtraction is clamped at zero per file, so adjusted per-file
counts are never negative, and consequently the accumulated
`RepoStats.added` and `RepoStats.removed` stay non-negative over any record
stream whose raw numeric fields are non-negative. -/
theorem zero_floor :
    (∀ (ign : IgnTable) (f : Str) (a r : Int), 0 ≤ a → 0 ≤ r →
      0 ≤ (adjustCounts ign f a r).1 ∧ 0 ≤ (adjustCounts ign f a r).2) ∧
    (∀ (re : Str → Str → Bool) (excl : List Str) (ign : IgnTable)
      (lines : List Str) (c : Nat) (st : GitLogState),
      (∀ l ∈ lines, lineNonneg l = true) →
      processGitLog re excl ign lines c = some st →
      0 ≤ st.stats.added ∧ 0 ≤ st.stats.removed) := by
  constructor
  · exact fun ign f a r ha hr => adjustCounts_nonneg ign f a r ha hr
  · intro re excl ign lines c st hl h
    exact processLines_inv re excl ign NonnegStats (fun l => lineNonneg l = true)
      (fun s l s' hP hQ hstep => gitLogStep_nonneg re excl ign s l s' hP hQ hstep)
      lines ⟨⟨0, 0, 0, c⟩, [], none⟩ st hl h ⟨le_refl 0, le_refl 0⟩

theorem zero_floor_witness :
    (0 ≤ (adjustCounts c2Ign "a.txt".toList 10 2).1 ∧
      0 ≤ (adjustCounts c2Ign "a.txt".toList 10 2).2) ∧
    (0 ≤ (⟨⟨0, 2, -2, 0⟩, [], none⟩ : GitLogState).stats.added ∧
      0 ≤ (⟨⟨0, 2, -2, 0⟩, [], none⟩ : GitLogState).stats.removed) :=
  ⟨zero_floor.1 c2Ign "a.txt".toList 10 2 (by decide) (by decide),
   zero_floor.2 exRe [] c2Ign c2Lines 0 ⟨⟨0, 2, -2, 0⟩, [], none⟩
     (by decide) (by decide)⟩

theorem gitLogStep_excluded (re : Str → Str → Bool) (excl : List Str) (ign : IgnTable)
    (s : GitLogState) (line : Str)
    (h : isExcludedStat re excl line = true) :
    gitLogStep re excl ign s line = some s := by
  unfold isExcludedStat at h
  simp only [Bool.and_eq_true, Bool.not_eq_true', decide_eq_false_iff_not] at h
  obtain ⟨⟨hdl, hne⟩, hm⟩ := h
  unfold gitLogStep
  split
  · rename_i hd; rw [hdl] at hd; exact absurd hd (by simp)
  · split
    · rename_i added removed filePath hsp
      rw [hsp] at hm
      dsimp only at hm
      simp only [Bool.and_eq_true] at hm
      by_cases hb : added = binTok ∨ removed = binTok
      · rw [if_pos hb]
      · rw [if_neg hb, if_pos hm.2]
    · rfl

theorem processLines_filter_excluded (re : Str → Str → Bool) (excl : List Str)
    (ign : IgnTable) :
    ∀ (lines : List Str) (s : GitLogState),
      processLines re excl ign s lines =
        processLines re excl ign s (lines.filter (fun l => !isExcludedStat re excl l)) := by
  intro lines
  induction lines with
  | nil => intro s; rfl
  | cons l ls ih =>
    intro s
    cases hex : isExcludedStat re excl l with
    | true =>
      rw [List.filter_cons_of_neg (by simp [hex])]
      simp only [processLines]
      rw [gitLogStep_excluded re excl ign s l hex]
      exact ih s
    | false =>
      rw [List.filter_cons_of_pos (by simp [hex])]
      simp only [processLines]
      cases hstep : gitLogStep re excl ign s l with
      | none => rfl
      | some s' => exact ih s'

/-- C5: a record whose file path is matched by some configured exclusion
pattern is a complete no-op for the accumulator — the state is unchanged —
and hence the whole run computes identical `RepoStats` and `DateStats`
whether or not the excluded records are present in the stream at all. -/
theorem exclusion_correctness :
    (∀ (re : Str → Str → Bool) (excl : List Str) (ign : IgnTable)
      (s : GitLogState) (line : Str), isExcludedStat re excl line = true →
        gitLogStep re excl ign s line = some s) ∧
    (∀ (re : Str → Str → Bool) (excl : List Str) (ign : IgnTable)
      (lines : List Str) (c : Nat),
      processGitLog re excl ign lines c =
        processGitLog re excl ign (lines.filter (fun l => !isExcludedStat re excl l)) c) := by
  constructor
  · exact fun re excl ign s line h => gitLogStep_excluded re excl ign s line h
  · intro re excl ign lines c
    exact processLines_filter_excluded re excl ign lines _

theorem exclusion_correctness_witness :
    gitLogStep rePrefix c5Excl [] ⟨⟨0, 0, 0, 0⟩, [], none⟩ c5Line =
      some ⟨⟨0, 0, 0, 0⟩, [], none⟩ :=
  exclusion_correctness.1 rePrefix c5Excl [] ⟨⟨0, 0, 0, 0⟩, [], none⟩ c5Line (by decide)

/-! ## C6: a stat line before any date marker -/
/-- C6 counterexample: a valid stat line appearing before any date-marker
line is *not* skipped entirely — it is accumulated into the overall
RepoStats (only the DateStats bucket update is skipped), so the resulting
added count is 5, not 0. -/
theorem stat_line_before_marker_cex :
    processGitLog exRe [] [] ["5\t3\ta.txt".toList] 0 =
      some ⟨⟨5, 3, 2, 0⟩, [], none⟩ ∧ (5 : Int) ≠ 0 :=
  ⟨by decide, by decide⟩

/-- C6 (amended): a valid, non-excluded, non-binary stat line processed
while no date marker has been seen yet (`current_date is None`) adds its
adjusted counts to RepoStats but leaves DateStats untouched. -/
theorem stat_line_before_marker (re : Str → Str → Bool) (excl : List Str)
    (ign : IgnTable) (s : GitLogState) (line added removed filePath : Str) (a r : Int)
    (hcd : s.currentDate = none)
    (hdl : isDateLine line = false) (hne : line ≠ [])
    (hsp : pySplit '\t' line = [added, removed, filePath])
    (hb : ¬(added = binTok ∨ removed = binTok))
    (hex : (excl.any fun p => re p filePath) = false)
    (hpA : pyInt? added = some a) (hpR : pyInt? removed = some r) :
    gitLogStep re excl ign s line =
      some ⟨⟨s.stats.added + (adjustCounts ign filePath a r).1,
             s.stats.removed + (adjustCounts ign filePath a r).2,
             s.stats.total +
               ((adjustCounts ign filePath a r).1 - (adjustCounts ign filePath a r).2),
             s.stats.commits⟩,
            s.dateStats, none⟩ := by
  unfold gitLogStep
  rw [if_neg (by simp [hdl] : ¬ isDateLine line = true), if_neg hne, hsp]
  dsimp only
  rw [if_neg hb, if_neg (by simp [hex] : ¬ (excl.any fun p => re p filePath) = true),
    hpA, hpR]
  dsimp only
  rw [hcd]

theorem stat_line_before_marker_witness :
    gitLogStep exRe [] [] ⟨⟨0, 0, 0, 7⟩, [], none⟩ "5\t3\ta.txt".toList =
      some ⟨⟨0 + (adjustCounts [] "a.txt".toList 5 3).1,
             0 + (adjustCounts [] "a.txt".toList 5 3).2,
             0 + ((adjustCounts [] "a.txt".toList 5 3).1 -
               (adjustCounts [] "a.txt".toList 5 3).2),
             7⟩, [], none⟩ :=
  stat_line_before_marker exRe [] [] ⟨⟨0, 0, 0, 7⟩, [], none⟩ "5\t3\ta.txt".toList
    "5".toList "3".toList "a.txt".toList 5 3 rfl (by decide) (by decide) (by decide)
    (by decide) (by decide) (by decide) (by decide)

/-! ## C10: every date marker creates a (possibly all-zero) DateStats entry -/
theorem containsDate_initDate_self (ds : List (Str × DateStats)) (d : Str) :
    containsDate (initDate ds d) d = true := by
  unfold initDate
  split
  · assumption
  · unfold containsDate
    simp [List.any_append]

theorem containsDate_initDate_mono (ds : List (Str × DateStats)) (d x : Str)
    (h : containsDate ds d = true) :
    containsDate (initDate ds x) d = true := by
  unfold initDate
  split
  · exact h
  · unfold containsDate at h ⊢
    simp only [List.any_append, Bool.or_eq_true]
    exact Or.inl h

theorem containsDate_bumpDate (ds : List (Str × DateStats)) (d' : Str)
    (ac rc : Int) (x : Str) :
    containsDate (bumpDate ds d' ac rc) x = containsDate ds x := by
  unfold containsDate bumpDate
  induction ds with
  | nil => rfl
  | cons p ps ih =>
    simp only [List.map_cons, List.any_cons]
    rw [ih]
    congr 1
    by_cases hp : p.1 = d' <;> simp [hp]

theorem gitLogStep_keepsDate (re : Str → Str → Bool) (excl : List Str)
    (ign : IgnTable) (s : GitLogState) (l : Str) (s' : GitLogState) (d : Str)
    (hc : containsDate s.dateStats d = true)
    (h : gitLogStep re excl ign s l = some s') :
    containsDate s'.dateStats d = true := by
  unfold gitLogStep at h
  split at h
  · simp only [Option.some.injEq] at h; subst h
    exact containsDate_initDate_mono _ _ _ hc
  · split at h
    · simp only [Option.some.injEq] at h; subst h; exact hc
    · split at h
      · rename_i added removed filePath hsp
        split at h
        · simp only [Option.some.injEq] at h; subst h; exact hc
        · split at h
          · simp only [Option.some.injEq] at h; subst h; exact hc
          · cases hpA : pyInt? added with
            | none => rw [hpA] at h; simp at h
            | some a =>
              cases hpR : pyInt? removed with
              | none => rw [hpA, hpR] at h; simp at h
              | some r =>
                rw [hpA, hpR] at h
                simp only [Option.some.injEq] at h
                subst h
                cases hcd : s.currentDate with
                | none => simpa [hcd] using hc
                | some d' =>
                  simp only [hcd]
                  rw [containsDate_bumpDate]
                  exact hc
      · simp only [Option.some.injEq] at h; subst h; exact hc

theorem processLines_dateEntry (re : Str → Str → Bool) (excl : List Str)
    (ign : IgnTable) :
    ∀ (lines : List Str) (s st : GitLogState),
      processLines re excl ign s lines = some st →
      ∀ l ∈ lines, isDateLine l = true →
        containsDate st.dateStats (pyStripChar '"' l) = true := by
  intro lines
  induction lines with
  | nil => intro s st h l hl; exact absurd hl (List.not_mem_nil l)
  | cons l0 ls ih =>
    intro s st h l hl hdl
    simp only [processLines] at h
    cases hstep : gitLogStep re excl ign s l0 with
    | none => rw [hstep] at h; exact absurd h (by simp)
    | some s1 =>
      rw [hstep] at h
      rcases List.mem_cons.1 hl with rfl | hl'
      · have hc1 : containsDate s1.dateStats (pyStripChar '"' l) = true := by
          unfold gitLogStep at hstep
          rw [if_pos (by simp [hdl] : isDateLine l = true)] at hstep
          simp only [Option.some.injEq] at hstep
          subst hstep
          exact containsDate_initDate_self _ _
        exact processLines_inv re excl ign
          (fun s => containsDate s.dateStats (pyStripChar '"' l) = true) (fun _ => True)
          (fun s a s' hP _ hstep' => gitLogStep_keepsDate re excl ign s a s' _ hP hstep')
          ls s1 st (fun _ _ => trivial) h hc1
      · exact ih s1 st h l hl' hdl

/-- C10: every date-marker line in the stream leaves an entry for its date
in the returned DateStats, and the entry can remain `{added 0, removed 0,
total 0}` when every stat line under it is filtered out — here one excluded
and one binary record leave the bucket at zero. -/
theorem date_marker_initializes_bucket :
    (∀ (re : Str → Str → Bool) (excl : List Str) (ign : IgnTable)
       (lines : List Str) (c : Nat) (st : GitLogState),
       processGitLog re excl ign lines c = some st →
       ∀ l ∈ lines, isDateLine l = true →
         containsDate st.dateStats (pyStripChar '"' l) = true) ∧
    getGitStats rePrefix ["vendor/".toList] []
        ["\"2024-01-01\"".toList, "100\t0\tvendor/lib.js".toList,
         "-\t-\timg.png".toList] 0 =
      some (⟨0, 0, 0, 0⟩, [("2024-01-01".toList, ⟨0, 0, 0⟩)]) := by
  constructor
  · intro re excl ign lines c st h l hl hdl
    exact processLines_dateEntry re excl ign lines _ st h l hl hdl
  · decide

theorem date_marker_initializes_bucket_witness :
    ∃ st : GitLogState,
      processGitLog exRe [] [] c10Lines 0 = some st ∧
      containsDate st.dateStats (pyStripChar '"' "\"2024-01-01\"".toList) = true :=
  ⟨⟨⟨0, 0, 0, 0⟩, [("2024-01-01".toList, ⟨0, 0, 0⟩)], some "2024-01-01".toList⟩,
   by decide,
   date_marker_initializes_bucket.1 exRe [] [] c10Lines 0
     ⟨⟨0, 0, 0, 0⟩, [("2024-01-01".toList, ⟨0, 0, 0⟩)], some "2024-01-01".toList⟩
     (by decide) "\"2024-01-01\"".toList (by decide) (by decide)⟩

theorem lookupTbl_append (t1 t2 : IgnTable) (g : Str) :
    lookupTbl (t1 ++ t2) g =
      match lookupTbl t1 g with
      | some v => some v
      | none => lookupTbl t2 g := by
  induction t1 with
  | nil => simp [lookupTbl]
  | cons p ps ih =>
    obtain ⟨k, a, r⟩ := p
    by_cases h : k = g <;> simp [lookupTbl, h, ih]

theorem lookupTbl_addToKey (t : IgnTable) (f : Str) (da dr : Int) (g : Str) :
    lookupTbl (addToKey t f da dr) g =
      if f = g then (lookupTbl t g).map (fun v => (v.1 + da, v.2 + dr))
      else lookupTbl t g := by
  induction t with
  | nil => by_cases h : f = g <;> simp [addToKey, lookupTbl, h]
  | cons p ps ih =>
    obtain ⟨k, a, r⟩ := p
    by_cases hkf : k = f
    · subst hkf
      by_cases hkg : k = g
      · subst hkg; simp [addToKey, lookupTbl]
      · simp [addToKey, lookupTbl, hkg]
    · by_cases hkg : k = g
      · subst hkg
        have hfg : ¬ f = k := fun h => hkf h.symm
        simp [addToKey, lookupTbl, hkf, hfg]
      · simp [addToKey, lookupTbl, hkf, hkg, ih]

theorem ensureKey_isSome (t : IgnTable) (f : Str) :
    (lookupTbl (ensureKey t f) f).isSome = true := by
  unfold ensureKey
  split
  · assumption
  · rw [lookupTbl_append]
    cases hl : lookupTbl t f with
    | some v => simp
    | none => simp [lookupTbl]

theorem addToKey_isSome (t : IgnTable) (f g : Str) (da dr : Int)
    (h : (lookupTbl t g).isSome = true) :
    (lookupTbl (addToKey t f da dr) g).isSome = true := by
  rw [lookupTbl_addToKey]
  by_cases hfg : f = g
  · simp only [hfg, if_pos]
    cases hl : lookupTbl t g with
    | none => rw [hl] at h; simp at h
    | some v => simp
  · simpa [hfg] using h

theorem lk_ensureKey (t : IgnTable) (f g : Str) :
    lkA (ensureKey t f) g = lkA t g ∧ lkR (ensureKey t f) g = lkR t g := by
  unfold ensureKey
  split
  · exact ⟨rfl, rfl⟩
  · unfold lkA lkR
    rw [lookupTbl_append]
    cases hl : lookupTbl t g with
    | some v => exact ⟨rfl, rfl⟩
    | none => by_cases hfg : f = g <;> simp [lookupTbl, hfg]

theorem lk_addToKey (t : IgnTable) (f g : Str) (da dr : Int)
    (hp : (lookupTbl t f).isSome = true) :
    lkA (addToKey t f da dr) g = lkA t g + (if f = g then da else 0) ∧
    lkR (addToKey t f da dr) g = lkR t g + (if f = g then dr else 0) := by
  unfold lkA lkR
  rw [lookupTbl_addToKey]
  by_cases hfg : f = g
  · subst hfg
    cases hl : lookupTbl t f with
    | none => rw [hl] at hp; simp at hp
    | some v => obtain ⟨va, vr⟩ := v; simp
  · simp [hfg]

theorem ignLineStep_lk (t : IgnTable) (l : Str) (f : Str) :
    lkA (resTable (ignLineStep t l)) f = lkA t f + lineEffA l f ∧
    lkR (resTable (ignLineStep t l)) f = lkR t f + lineEffR l f ∧
    isOkE (ignLineStep t l) = lineOk l := by
  by_cases hbl : (pyStripWs l).isEmpty = true
  · simp [ignLineStep, lineEffA, lineEffR, lineOk, hbl, resTable, isOkE]
  · rcases hsp : pySplit '\t' l with _ | ⟨a0, _ | ⟨a1, _ | ⟨a2, _ | ⟨a3, rest⟩⟩⟩⟩
    · simp [ignLineStep, lineEffA, lineEffR, lineOk, hbl, hsp, resTable, isOkE]
    · simp [ignLineStep, lineEffA, lineEffR, lineOk, hbl, hsp, resTable, isOkE]
    · simp [ignLineStep, lineEffA, lineEffR, lineOk, hbl, hsp, resTable, isOkE]
    · by_cases hbin : a0 = binTok ∨ a1 = binTok
      · simp [ignLineStep, lineEffA, lineEffR, lineOk, hbl, hsp, hbin, resTable, isOkE]
      · cases hA : pyInt? a0 with
        | none =>
          have h1 := lk_ensureKey t a2 f
          simp only [ignLineStep, lineEffA, lineEffR, lineOk, hbl, hsp, hbin, hA,
            resTable, isOkE, if_neg, if_false]
          refine ⟨?_, ?_, ?_⟩
          · simp [hbl, hbin, h1.1]
          · simp [hbl, hbin, h1.2]
          · simp [hbl, hbin]
        | some a =>
          have h1 := lk_ensureKey t a2 f
          have h2 := lk_addToKey (ensureKey t a2) a2 f a 0 (ensureKey_isSome t a2)
          cases hR : pyInt? a1 with
          | none =>
            simp only [ignLineStep, lineEffA, lineEffR, lineOk, hbl, hsp, hbin, hA, hR,
              resTable, isOkE]
            refine ⟨?_, ?_, ?_⟩
            · simp [h2.1, h1.1]
            · simp [h2.2, h1.2]
            · simp [hbl, hbin]
          | some r =>
            have h3 := lk_addToKey (addToKey (ensureKey t a2) a2 a 0) a2 f 0 r
              (addToKey_isSome (ensureKey t a2) a2 a2 a 0 (ensureKey_isSome t a2))
            simp only [ignLineStep, lineEffA, lineEffR, lineOk, hbl, hsp, hbin, hA, hR,
              resTable, isOkE]
            refine ⟨?_, ?_, ?_⟩
            · simp [h3.1, h2.1, h1.1]
            · simp [h3.2, h2.2, h1.2]
            · simp [hbl, hbin]
    · simp [ignLineStep, lineEffA, lineEffR, lineOk, hbl, hsp, resTable, isOkE]

theorem ignCommitLines_lk (f : Str) :
    ∀ (lines : List Str) (t : IgnTable),
      lkA (ignCommitLines t lines) f = lkA t f + commitEffA lines f ∧
      lkR (ignCommitLines t lines) f = lkR t f + commitEffR lines f := by
  intro lines
  induction lines with
  | nil => intro t; simp [ignCommitLines, commitEffA, commitEffR]
  | cons l ls ih =>
    intro t
    obtain ⟨hA, hR, hOk⟩ := ignLineStep_lk t l f
    simp only [ignCommitLines, commitEffA, commitEffR]
    cases hstep : ignLineStep t l with
    | ok t' =>
      have hok : lineOk l = true := by rw [← hOk, hstep]; rfl
      rw [hstep] at hA hR
      simp only [resTable] at hA hR
      obtain ⟨ihA, ihR⟩ := ih t'
      rw [hok]
      simp only [if_pos]
      constructor
      · rw [ihA, hA]; ring
      · rw [ihR, hR]; ring
    | error t' =>
      have hok : lineOk l = false := by rw [← hOk, hstep]; rfl
      rw [hstep] at hA hR
      simp only [resTable] at hA hR
      rw [hok]
      simp only [Bool.false_eq_true, if_false]
      exact ⟨hA, hR⟩

theorem buildIgnoredChanges_lk (fetch : Str → Option (List Str)) (f : Str) :
    ∀ (hs : List Str) (t : IgnTable),
      lkA (buildIgnoredChanges fetch t hs) f =
        lkA t f + (hs.map (fun h => commitEffA ((fetch h).getD []) f)).sum ∧
      lkR (buildIgnoredChanges fetch t hs) f =
        lkR t f + (hs.map (fun h => commitEffR ((fetch h).getD []) f)).sum := by
  intro hs
  induction hs with
  | nil => intro t; simp [buildIgnoredChanges]
  | cons h0 hs ih =>
    intro t
    simp only [buildIgnoredChanges, List.map_cons, List.sum_cons]
    cases hfetch : fetch h0 with
    | none =>
      obtain ⟨ihA, ihR⟩ := ih t
      dsimp only
      simp only [Option.getD_none, commitEffA, commitEffR]
      constructor
      · rw [ihA]; ring
      · rw [ihR]; ring
    | some lines =>
      obtain ⟨ihA, ihR⟩ := ih (ignCommitLines t lines)
      obtain ⟨hcA, hcR⟩ := ignCommitLines_lk f lines t
      dsimp only
      simp only [Option.getD_some]
      constructor
      · rw [ihA, hcA]; ring
      · rw [ihR, hcR]; ring

/-! ## C8: a missing ignored changeset is skipped, never fatal -/
theorem buildIgnoredChanges_filter (fetch : Str → Option (List Str)) :
    ∀ (hs : List Str) (t : IgnTable),
      buildIgnoredChanges fetch t hs =
        buildIgnoredChanges fetch t (hs.filter (fun h => (fetch h).isSome)) := by
  intro hs
  induction hs with
  | nil => intro t; rfl
  | cons h0 hs ih =>
    intro t
    simp only [buildIgnoredChanges]
    cases hfetch : fetch h0 with
    | none =>
      rw [List.filter_cons_of_neg (by simp [hfetch])]
      exact ih t
    | some lines =>
      rw [List.filter_cons_of_pos (by simp [hfetch])]
      simp only [buildIgnoredChanges, hfetch]
      exact ih (ignCommitLines t lines)

/-- C8: a changeset identifier whose retrieval fails contributes nothing and
does not abort table building: the IgnoredChangeTable built over the whole
ignore-list equals the one built over exactly the successfully retrieved
identifiers, and per file its counts are the sum of those identifiers'
contributions. -/
theorem missing_ignored_commit_skipped (fetch : Str → Option (List Str))
    (hashes : List Str) :
    buildIgnoredChanges fetch [] hashes =
      buildIgnoredChanges fetch [] (hashes.filter (fun h => (fetch h).isSome)) ∧
    ∀ f : Str,
      lkA (buildIgnoredChanges fetch [] hashes) f =
        ((hashes.filter (fun h => (fetch h).isSome)).map
          (fun h => commitEffA ((fetch h).getD []) f)).sum ∧
      lkR (buildIgnoredChanges fetch [] hashes) f =
        ((hashes.filter (fun h => (fetch h).isSome)).map
          (fun h => commitEffR ((fetch h).getD []) f)).sum := by
  constructor
  · exact buildIgnoredChanges_filter fetch hashes []
  · intro f
    rw [buildIgnoredChanges_filter fetch hashes []]
    obtain ⟨hA, hR⟩ :=
      buildIgnoredChanges_lk fetch f (hashes.filter (fun h => (fetch h).isSome)) []
    constructor
    · rw [hA]; simp [lkA, lookupTbl]
    · rw [hR]; simp [lkR, lookupTbl]

/-- C3 counterexample: with one raw record `10 added, 5 removed` for
`f.txt` and an ignored commit contributing `3 added, 1 removed` to it,
listing the commit once yields adjusted stats `(7, 4)` but listing it twice
yields `(4, 3)` — the duplicated identifier is subtracted twice, not
de-duplicated. -/
theorem ignore_dedup_cex :
    getGitStats exRe []
        (buildIgnoredChanges c3Fetch [] ["abc123".toList]) c3Lines 0 =
      some (⟨7, 4, 3, 0⟩, []) ∧
    getGitStats exRe []
        (buildIgnoredChanges c3Fetch [] ["abc123".toList, "abc123".toList]) c3Lines 0 =
      some (⟨4, 3, 1, 0⟩, []) ∧
    (⟨7, 4, 3, 0⟩ : RepoStats) ≠ ⟨4, 3, 1, 0⟩ :=
  ⟨by decide, by decide, by decide⟩

/-- C3 (amended): the table-building stage does not de-duplicate — every
occurrence of an identifier adds its per-file contribution again, so a
fully duplicated ignore-list doubles every per-file subtraction (the
adjusted counts are then still clamped at zero per file). -/
theorem ignore_list_duplication_doubles (fetch : Str → Option (List Str))
    (hashes : List Str) (f : Str) :
    lkA (buildIgnoredChanges fetch [] (hashes ++ hashes)) f =
      2 * lkA (buildIgnoredChanges fetch [] hashes) f ∧
    lkR (buildIgnoredChanges fetch [] (hashes ++ hashes)) f =
      2 * lkR (buildIgnoredChanges fetch [] hashes) f := by
  obtain ⟨hA, hR⟩ := buildIgnoredChanges_lk fetch f hashes []
  obtain ⟨hA2, hR2⟩ := buildIgnoredChanges_lk fetch f (hashes ++ hashes) []
  rw [hA, hR, hA2, hR2]
  simp only [List.map_append, List.sum_append]
  constructor
  · simp [lkA, lookupTbl]; ring
  · simp [lkR, lookupTbl]; ring

/-- C4 evaluation at the failing input: authors `"alice, bob"` against one
repository where only alice has line contributions (bob has 5 commits but
zero added/removed).  Because `all_repos_stats` is never reset between
authors, the CSV contains a row labelled `bob` carrying alice's numbers —
the claim says bob's row is omitted.  (The grand totals do equal alice's
totals, and the zero-contribution stats themselves are never stored.) -/
theorem zero_pair_row_emitted :
    runMain c4GetStats "alice, bob".toList c4Repos =
      .ok ⟨[⟨"alice".toList, "repo1".toList, 10, 2, 8, 3⟩,
            ⟨"bob".toList, "repo1".toList, 10, 2, 8, 3⟩],
           (10, 2, 8, 12, 3)⟩ := by decide

/-- C9 evaluation at the failing input: one author, one valid repository,
commits present but no line contributions.  `all_repos_stats` stays empty,
so `total_added` is never assigned and line 366
(`total_change = total_added + total_removed`) raises `NameError` — the
export step crashes instead of completing with the grand-total row. -/
theorem export_crashes_without_contributions :
    runMain c9GetStats "alice".toList c4Repos = .error () := by decide

/-- C7 counterexample: two repositories that share the basename `proj`.
`all_repos_stats` is keyed by basename only, so the later-processed
repository overwrites the earlier one's entry, and permuting the repository
list changes the grand totals: (5,0,5,5,2) against (1,0,1,1,1). -/
theorem repo_order_cex :
    [c7r2, c7r1].Perm [c7r1, c7r2] ∧
    totalsOf (runMain c7GetStats "alice".toList [c7r1, c7r2]) = .ok (5, 0, 5, 5, 2) ∧
    totalsOf (runMain c7GetStats "alice".toList [c7r2, c7r1]) = .ok (1, 0, 1, 1, 1) ∧
    ((5 : Int), (0 : Int), (5 : Int), (5 : Int), (2 : Nat)) ≠ (1, 0, 1, 1, 1) :=
  ⟨by decide, by decide, by decide, by decide⟩

theorem nodupKeys_perm {t₁ t₂ : List (Str × RepoStats)} (h : t₁.Perm t₂)
    (hn : NodupKeys t₁) : NodupKeys t₂ :=
  ((h.map Prod.fst).nodup_iff).mp hn

theorem eraseKey_keys_not (t : List (Str × RepoStats)) (k : Str) :
    ∀ p ∈ eraseKey t k, ¬ p.1 = k := by
  intro p hp
  unfold eraseKey at hp
  have := List.of_mem_filter hp
  simpa using this

theorem nodupKeys_eraseKey (t : List (Str × RepoStats)) (k : Str)
    (h : NodupKeys t) : NodupKeys (eraseKey t k) := by
  unfold NodupKeys at h ⊢
  unfold eraseKey
  exact List.Nodup.sublist ((List.filter_sublist t).map Prod.fst) h

theorem nodupKeys_cons_eraseKey (t : List (Str × RepoStats)) (k : Str) (v : RepoStats)
    (h : NodupKeys t) : NodupKeys ((k, v) :: eraseKey t k) := by
  unfold NodupKeys
  simp only [List.map_cons]
  refine List.nodup_cons.mpr ⟨?_, nodupKeys_eraseKey t k h⟩
  intro hmem
  rcases List.mem_map.1 hmem with ⟨p, hp, hpk⟩
  exact eraseKey_keys_not t k p hp hpk

theorem updateRepoTable_perm_canon (k : Str) (v : RepoStats) :
    ∀ (t : List (Str × RepoStats)), NodupKeys t →
      (updateRepoTable t k v).Perm ((k, v) :: eraseKey t k) := by
  intro t
  induction t with
  | nil => intro _; exact List.Perm.refl _
  | cons p rest ih =>
    obtain ⟨k', v'⟩ := p
    intro h
    by_cases hk : k = k'
    · subst hk
      have hks : ∀ q ∈ rest, ¬ q.1 = k := by
        unfold NodupKeys at h
        simp only [List.map_cons] at h
        have hnotin := (List.nodup_cons.1 h).1
        intro q hq hqk
        exact hnotin (hqk ▸ List.mem_map_of_mem Prod.fst hq)
      simp only [updateRepoTable, if_pos rfl]
      unfold eraseKey
      rw [List.filter_cons_of_neg (by simp)]
      rw [List.filter_eq_self.mpr (fun q hq => by simpa using hks q hq)]
      simp
    · have hrest : NodupKeys rest := by
        unfold NodupKeys at h ⊢
        simp only [List.map_cons] at h
        exact (List.nodup_cons.1 h).2
      have hk' : ¬ k = k' := hk
      simp only [updateRepoTable, if_neg hk']
      unfold eraseKey
      rw [List.filter_cons_of_pos (by simp; exact fun he => hk (he.symm))]
      refine ((ih hrest).cons (k', v')).trans ?_
      exact List.Perm.swap (k, v) (k', v') (eraseKey rest k)

theorem nodupKeys_updateRepoTable (t : List (Str × RepoStats)) (k : Str)
    (v : RepoStats) (h : NodupKeys t) : NodupKeys (updateRepoTable t k v) :=
  nodupKeys_perm (updateRepoTable_perm_canon k v t h).symm
    (nodupKeys_cons_eraseKey t k v h)

theorem updateRepoTable_perm_congr {t₁ t₂ : List (Str × RepoStats)} (k : Str)
    (v : RepoStats) (hp : t₁.Perm t₂) (h₁ : NodupKeys t₁) :
    (updateRepoTable t₁ k v).Perm (updateRepoTable t₂ k v) := by
  have h₂ : NodupKeys t₂ := nodupKeys_perm hp h₁
  refine (updateRepoTable_perm_canon k v t₁ h₁).trans
    (List.Perm.trans ?_ (updateRepoTable_perm_canon k v t₂ h₂).symm)
  refine List.Perm.cons (k, v) ?_
  unfold eraseKey
  exact hp.filter (fun p => decide (¬ p.1 = k))

theorem eraseKey_eraseKey (t : List (Str × RepoStats)) (k₁ k₂ : Str) :
    eraseKey (eraseKey t k₁) k₂ = eraseKey (eraseKey t k₂) k₁ := by
  unfold eraseKey
  rw [List.filter_filter, List.filter_filter]
  exact List.filter_congr (fun p _ => by by_cases h1 : p.1 = k₁ <;> by_cases h2 : p.1 = k₂ <;> simp [h1, h2])

theorem eraseKey_perm {t₁ t₂ : List (Str × RepoStats)} (k : Str) (hp : t₁.Perm t₂) :
    (eraseKey t₁ k).Perm (eraseKey t₂ k) := by
  unfold eraseKey
  exact hp.filter (fun p => decide (¬ p.1 = k))

theorem eraseKey_cons_of_ne (p : Str × RepoStats) (t : List (Str × RepoStats))
    (k : Str) (hne : ¬ p.1 = k) : eraseKey (p :: t) k = p :: eraseKey t k := by
  unfold eraseKey
  rw [List.filter_cons_of_pos (by simpa using hne)]

theorem updateRepoTable_comm (t : List (Str × RepoStats)) (k₁ k₂ : Str)
    (v₁ v₂ : RepoStats) (hk : ¬ k₁ = k₂) (h : NodupKeys t) :
    (updateRepoTable (updateRepoTable t k₁ v₁) k₂ v₂).Perm
      (updateRepoTable (updateRepoTable t k₂ v₂) k₁ v₁) := by
  have h1 : NodupKeys (updateRepoTable t k₁ v₁) := nodupKeys_updateRepoTable t k₁ v₁ h
  have h2 : NodupKeys (updateRepoTable t k₂ v₂) := nodupKeys_updateRepoTable t k₂ v₂ h
  have c1 := updateRepoTable_perm_canon k₂ v₂ (updateRepoTable t k₁ v₁) h1
  have c2 := updateRepoTable_perm_canon k₁ v₁ (updateRepoTable t k₂ v₂) h2
  have e1 : (eraseKey (updateRepoTable t k₁ v₁) k₂).Perm
      ((k₁, v₁) :: eraseKey (eraseKey t k₂) k₁) := by
    refine (eraseKey_perm k₂ (updateRepoTable_perm_canon k₁ v₁ t h)).trans ?_
    rw [eraseKey_cons_of_ne (k₁, v₁) (eraseKey t k₁) k₂ hk]
    rw [eraseKey_eraseKey t k₁ k₂]
  have e2 : (eraseKey (updateRepoTable t k₂ v₂) k₁).Perm
      ((k₂, v₂) :: eraseKey (eraseKey t k₁) k₂) := by
    refine (eraseKey_perm k₁ (updateRepoTable_perm_canon k₂ v₂ t h)).trans ?_
    rw [eraseKey_cons_of_ne (k₂, v₂) (eraseKey t k₂) k₁ (fun he => hk he.symm)]
    rw [eraseKey_eraseKey t k₂ k₁]
  refine c1.trans (List.Perm.trans ?_ c2.symm)
  refine (List.Perm.cons (k₂, v₂) e1).trans ?_
  refine List.Perm.trans (List.Perm.swap (k₁, v₁) (k₂, v₂) _) ?_
  refine List.Perm.cons (k₁, v₁) ?_
  refine List.Perm.trans ?_ e2.symm
  refine List.Perm.cons (k₂, v₂) ?_
  rw [eraseKey_eraseKey t k₂ k₁]

theorem nodupKeys_repoStep (g : Str → Str → Option RepoStats) (a : Str)
    (t : List (Str × RepoStats)) (r : Repo) (h : NodupKeys t) :
    NodupKeys (repoStep g a t r) := by
  unfold repoStep
  cases g a r.path with
  | none => exact h
  | some st =>
    dsimp only
    split
    · exact nodupKeys_updateRepoTable t r.name st h
    · exact h

theorem repoStep_perm_congr (g : Str → Str → Option RepoStats) (a : Str)
    {t₁ t₂ : List (Str × RepoStats)} (r : Repo) (hp : t₁.Perm t₂)
    (h₁ : NodupKeys t₁) : (repoStep g a t₁ r).Perm (repoStep g a t₂ r) := by
  unfold repoStep
  cases g a r.path with
  | none => exact hp
  | some st =>
    dsimp only
    split
    · exact updateRepoTable_perm_congr r.name st hp h₁
    · exact hp

theorem repoStep_comm (g : Str → Str → Option RepoStats) (a : Str)
    (t : List (Str × RepoStats)) (r₁ r₂ : Repo) (hk : ¬ r₁.name = r₂.name)
    (h : NodupKeys t) :
    (repoStep g a (repoStep g a t r₁) r₂).Perm (repoStep g a (repoStep g a t r₂) r₁) := by
  unfold repoStep
  cases g a r₁.path with
  | none =>
    cases g a r₂.path with
    | none => exact List.Perm.refl _
    | some st₂ => dsimp only; exact List.Perm.refl _
  | some st₁ =>
    cases g a r₂.path with
    | none => dsimp only; exact List.Perm.refl _
    | some st₂ =>
      dsimp only
      by_cases hc₁ : st₁.added > 0 ∨ st₁.removed > 0
      · by_cases hc₂ : st₂.added > 0 ∨ st₂.removed > 0
        · simp only [if_pos hc₁, if_pos hc₂]
          exact updateRepoTable_comm t r₁.name r₂.name st₁ st₂ hk h
        · simp only [if_pos hc₁, if_neg hc₂]
          exact List.Perm.refl _
      · by_cases hc₂ : st₂.added > 0 ∨ st₂.removed > 0
        · simp only [if_neg hc₁, if_pos hc₂]
          exact List.Perm.refl _
        · simp only [if_neg hc₁, if_neg hc₂]
          exact List.Perm.refl _

theorem nodupKeys_processRepos (g : Str → Str → Option RepoStats) (a : Str) :
    ∀ (rs : List Repo) (t : List (Str × RepoStats)), NodupKeys t →
      NodupKeys (processRepos g a t rs) := by
  intro rs
  induction rs with
  | nil => intro t h; exact h
  | cons r rest ih =>
    intro t h
    exact ih (repoStep g a t r) (nodupKeys_repoStep g a t r h)

theorem processRepos_perm_congr (g : Str → Str → Option RepoStats) (a : Str) :
    ∀ (rs : List Repo) {t₁ t₂ : List (Str × RepoStats)}, t₁.Perm t₂ → NodupKeys t₁ →
      (processRepos g a t₁ rs).Perm (processRepos g a t₂ rs) := by
  intro rs
  induction rs with
  | nil => intro t₁ t₂ hp _; exact hp
  | cons r rest ih =>
    intro t₁ t₂ hp h₁
    exact ih (repoStep_perm_congr g a r hp h₁) (nodupKeys_repoStep g a t₁ r h₁)

theorem processRepos_perm_of_perm (g : Str → Str → Option RepoStats) (a : Str) :
    ∀ {rs₁ rs₂ : List Repo}, rs₁.Perm rs₂ → (rs₁.map Repo.name).Nodup →
      ∀ (t : List (Str × RepoStats)), NodupKeys t →
        (processRepos g a t rs₁).Perm (processRepos g a t rs₂) := by
  intro rs₁ rs₂ hp
  induction hp with
  | nil => intro _ t _; exact List.Perm.refl _
  | cons x hl ih =>
    intro hn t ht
    simp only [processRepos]
    refine ih ?_ (repoStep g a t x) (nodupKeys_repoStep g a t x ht)
    simp only [List.map_cons, List.nodup_cons] at hn
    exact hn.2
  | swap x y l =>
    intro hn t ht
    simp only [processRepos]
    have hk : ¬ y.name = x.name := by
      simp only [List.map_cons, List.nodup_cons, List.mem_cons] at hn
      exact fun he => hn.1 (Or.inl he)
    refine processRepos_perm_congr g a l (repoStep_comm g a t y x hk ht) ?_
    exact nodupKeys_repoStep g a (repoStep g a t y) x (nodupKeys_repoStep g a t y ht)
  | trans h₁ h₂ ih₁ ih₂ =>
    intro hn t ht
    refine (ih₁ hn t ht).trans (ih₂ ?_ t ht)
    exact ((h₁.map Repo.name).nodup_iff).mp hn

theorem perm_isEmpty {α : Type} {l₁ l₂ : List α} (h : l₁.Perm l₂) :
    l₁.isEmpty = l₂.isEmpty := by
  have hlen := h.length_eq
  cases l₁ <;> cases l₂ <;> simp_all

theorem authorStep_rel (g : Str → Str → Option RepoStats)
    {repos₁ repos₂ : List Repo} (hp : repos₁.Perm repos₂)
    (hn : (repos₁.map Repo.name).Nodup) {s₁ s₂ : MainState}
    (hr : MainRel s₁ s₂) (a : Str) :
    MainRel (authorStep g repos₁ s₁ a) (authorStep g repos₂ s₂ a) := by
  obtain ⟨hperm, hnk, htot⟩ := hr
  have ht' : (processRepos g a s₁.table repos₁).Perm (processRepos g a s₂.table repos₂) :=
    (processRepos_perm_congr g a repos₁ hperm hnk).trans
      (processRepos_perm_of_perm g a hp hn s₂.table (nodupKeys_perm hperm hnk))
  have hnk' : NodupKeys (processRepos g a s₁.table repos₁) :=
    nodupKeys_processRepos g a repos₁ s₁.table hnk
  have hemp : (processRepos g a s₁.table repos₁).isEmpty =
      (processRepos g a s₂.table repos₂).isEmpty := perm_isEmpty ht'
  unfold authorStep MainRel
  by_cases he : (processRepos g a s₁.table repos₁).isEmpty = true
  · rw [if_pos he, if_pos (hemp ▸ he)]
    exact ⟨ht', hnk', htot⟩
  · rw [if_neg he, if_neg (hemp ▸ he)]
    refine ⟨ht', hnk', ?_⟩
    have hA : tblAdded (processRepos g a s₁.table repos₁) =
        tblAdded (processRepos g a s₂.table repos₂) := (ht'.map _).sum_eq
    have hR : tblRemoved (processRepos g a s₁.table repos₁) =
        tblRemoved (processRepos g a s₂.table repos₂) := (ht'.map _).sum_eq
    have hN : tblNet (processRepos g a s₁.table repos₁) =
        tblNet (processRepos g a s₂.table repos₂) := (ht'.map _).sum_eq
    have hC : tblCommits (processRepos g a s₁.table repos₁) =
        tblCommits (processRepos g a s₂.table repos₂) := (ht'.map _).sum_eq
    dsimp only
    rw [hA, hR, hN, hC]

theorem processAuthors_rel (g : Str → Str → Option RepoStats)
    {repos₁ repos₂ : List Repo} (hp : repos₁.Perm repos₂)
    (hn : (repos₁.map Repo.name).Nodup) :
    ∀ (authors : List Str) {s₁ s₂ : MainState}, MainRel s₁ s₂ →
      MainRel (processAuthors g repos₁ s₁ authors) (processAuthors g repos₂ s₂ authors) := by
  intro authors
  induction authors with
  | nil => intro s₁ s₂ hr; exact hr
  | cons a rest ih =>
    intro s₁ s₂ hr
    exact ih (authorStep_rel g hp hn hr a)

/-- C7 (amended): as long as no two repositories share a basename
(`all_repos_stats` is keyed by basename alone), processing the repository
list in any permuted order yields a run with the same outcome of the export
step and identical grand totals (added, removed, net, change, commits). -/
theorem repo_order_invariance (g : Str → Str → Option RepoStats) (authorStr : Str)
    (repos₁ repos₂ : List Repo) (hp : repos₁.Perm repos₂)
    (hn : (repos₁.map Repo.name).Nodup) :
    totalsOf (runMain g authorStr repos₁) = totalsOf (runMain g authorStr repos₂) := by
  have hrel : MainRel (processAuthors g repos₁ ⟨[], [], none⟩ (splitAuthors authorStr))
      (processAuthors g repos₂ ⟨[], [], none⟩ (splitAuthors authorStr)) :=
    processAuthors_rel g hp hn (splitAuthors authorStr)
      ⟨List.Perm.refl _, by simp [NodupKeys], rfl⟩
  obtain ⟨_, _, htot⟩ := hrel
  unfold runMain totalsOf
  dsimp only
  rw [htot]
  cases (processAuthors g repos₂ ⟨[], [], none⟩ (splitAuthors authorStr)).totals with
  | none => rfl
  | some q => obtain ⟨a, r, n, c⟩ := q; rfl

theorem repo_order_invariance_witness :
    totalsOf (runMain c7GetStats "alice".toList [c7d1, c7d2]) =
      totalsOf (runMain c7GetStats "alice".toList [c7d2, c7d1]) :=
  repo_order_invariance c7GetStats "alice".toList [c7d1, c7d2] [c7d2, c7d1]
    (by decide) (by decide)
